import Mathlib

/-!
Verification of the CTB2Dep constituency-to-dependency convertor
(`convertor.py`).

The embedding models the pipeline
`_preprosess` → `Convertor.__mark_heads` → `_get_relations`
together with `_load_head_rules` and the in-place-mutation discipline of
the two copy-then-mutate passes.

Modelling conventions, fixed once and used throughout:

* Python strings are Lean `String`s; the Python string primitives used by
  the source (`str.split(sep)`, `str.split()`, `'-' in s`, `int(s)`) are
  re-implemented below on `String.data` with Python's semantics, because
  the source manipulates labels only through them.
* A tree node of `nltk.tree.ParentedTree` is a leaf (a preterminal of
  height 2: one category label and one token) or an internal node with a
  label and an ordered list of subtrees.  The parent back-reference is
  used by the source only for root detection inside `_get_relations`; it
  is modelled by threading an is-root flag.
* After `__mark_heads`, a label is the string `'{i}|{cat}'` when the node
  got a head (`set_label` was executed) and the raw category otherwise.
  `_get_relations` and `__mark_heads` only ever read such a label through
  `label().split('|')[0]` (the head part) and through the unpacking
  `_i, _tag = label().split('|')` (head part and category).  The model
  therefore stores the head part as a value of type `Sum Nat String`:
  `Sum.inl i` abstracts the decimal string of the integer `i` written by
  `'{}|{}'.format(index, label)`, `Sum.inr cat` abstracts a raw category
  string standing in head position (which happens when an unresolved
  child's whole label is read back as a head part).  This is faithful
  whenever categories contain no `'|'` and are not decimal numerals, the
  regime of every theorem below; the integer-parse behaviour of Python's
  `int` on a category string is modelled exactly by `pyToNat?`.
* Python raises exceptions in a few corner situations (tuple unpacking of
  a 1-element split result inside `__mark_heads`, `tree[-1]` of a
  childless internal node, `int(label)` of a non-numeric label inside
  `sorted`).  Fallible functions return `Except`/`Option`; the two
  `__mark_heads` corner cases cannot be reached under the well-formedness
  and full-marking hypotheses of the theorems that quantify over trees,
  and the model makes them total by skipping the offending child.
-/

/-! ## Python string primitives -/

/-- Splitting a character list at every character satisfying `p`, keeping
empty chunks, as Python's `str.split` with an explicit separator does. -/
def splitByAux (p : Char → Bool) : List Char → List Char → List (List Char)
  | [], acc => [acc.reverse]
  | c :: cs, acc =>
    if p c then acc.reverse :: splitByAux p cs []
    else splitByAux p cs (c :: acc)

/-- Python `s.split(sep)` for a one-character separator: splits at every
occurrence and keeps empty parts. -/
def pySplitOn (s : String) (sep : Char) : List String :=
  (splitByAux (fun c => c == sep) s.data []).map String.mk

/-- Python whitespace characters recognised by no-argument `str.split`. -/
def pyWs (c : Char) : Bool :=
  c == ' ' || c == '\t' || c == '\n' || c == '\r' || c == '\x0b' || c == '\x0c'

/-- Python `s.split()` with no argument: splits on whitespace runs and
drops empty parts. -/
def pySplitWs (s : String) : List String :=
  ((splitByAux pyWs s.data []).map String.mk).filter (fun x => x ≠ "")

/-- Python `int(s)` restricted to the shapes that occur in the source
(decimal digit strings succeed, anything else raises `ValueError`,
modelled as `none`). -/
def pyToNat? (s : String) : Option Nat :=
  if s.data ≠ [] ∧ s.data.all Char.isDigit then
    some (s.data.foldl (fun a c => 10 * a + (c.toNat - 48)) 0)
  else none

/-- The label cleaning of `_preprosess`: if `'-' in label` then
`label.split('-')[0]`, otherwise the label unchanged. -/
def cleanLabel (s : String) : String :=
  if s.data.contains '-' then (pySplitOn s '-').headD "" else s

/-! ## Data model -/

/-- A raw input tree: a preterminal leaf `(category token)` or an internal
node with ordered children; `_is_leaf` (height 2) distinguishes the two. -/
inductive STree where
  | leaf (label : String) (token : String)
  | node (label : String) (children : List STree)
deriving Repr

/-- A preprocessed tree: as `STree` but each leaf token was replaced by
its integer index (`tree[0] = index`). -/
inductive NTree where
  | leaf (label : String) (token : Nat)
  | node (label : String) (children : List NTree)
deriving Repr

/-- The head part of a marked label: `Sum.inl i` abstracts the decimal
string of index `i`, `Sum.inr cat` a raw category string read back from a
node that never received a head. -/
abbrev HeadV := Sum Nat String

/-- A head-marked tree as produced by `__mark_heads`.  A leaf's label is
always rewritten to `'{index}|{category}'`; an internal node's label is
`'{head}|{category}'` when some rule or the fallback fired (`head = some`)
and stays the bare category otherwise (`head = none`). -/
inductive HTree where
  | leaf (index : Nat) (cat : String)
  | node (head : Option HeadV) (cat : String) (children : List HTree)
deriving Repr

/-- One head rule: `{'direction': sub_rule[0], 'tags': sub_rule[1:]}`. -/
structure HeadRule where
  direction : String
  tags : List String
deriving Repr, DecidableEq

/-- The loaded rule dictionary, as an insertion-ordered association list;
lookup takes the last binding, as later `rules[tag] = rule` assignments
overwrite earlier ones in a Python dict. -/
abbrev RuleTable := List (String × List HeadRule)

/-- Python `rules[tag]` for our association-list dictionary: the last
binding of the key, if any. -/
def dictGet? (tbl : RuleTable) (k : String) : Option (List HeadRule) :=
  ((tbl.filter (fun p => p.1 == k)).getLast?).map Prod.snd

/-! ## `_load_head_rules` -/

/-- Parsing one `;`-separated rule group: whitespace-split it; the first
token is the direction, the rest are the priority tags.  An empty group
makes `sub_rule[0]` raise `IndexError`. -/
def parseSubRule (s : String) : Except String HeadRule :=
  match pySplitWs s with
  | [] => .error "IndexError: list index out of range"
  | d :: ts => .ok ⟨d, ts⟩

/-- Parsing one line of the rule file: `tag, rule = line.split(':')`
raises `ValueError` unless the split has exactly two parts; then the rule
part is split on `';'` and each group parsed by `parseSubRule`. -/
def parseRuleLine (line : String) : Except String (String × List HeadRule) :=
  match pySplitOn line ':' with
  | [tag, rest] => ((pySplitOn rest ';').mapM parseSubRule).map (fun rs => (tag, rs))
  | _ => .error "ValueError: unpacking line.split(difference from 2 parts)"

/-- `_load_head_rules`, over the file's lines: the `for line in f` loop
parses each line in order into a dictionary entry, propagating the first
parse exception. -/
def loadHeadRules : List String → Except String RuleTable
  | [] => .ok []
  | line :: rest => do
    let ent ← parseRuleLine line
    let tbl ← loadHeadRules rest
    .ok (ent :: tbl)

/-! ## `_preprosess` -/

mutual

/-- The `__iterate` pass of `_preprosess` on one subtree, given the next
free leaf index: cleans every label, replaces each leaf token by its
index, and yields the `(cleaned tag, original token)` pairs in
left-to-right order.  The caller advances the index by the number of
yielded pairs, exactly as the `index += 1` per yielded item does. -/
def preprosessT : STree → Nat → NTree × List (String × String)
  | .leaf lab tok, i => (.leaf (cleanLabel lab) i, [(cleanLabel lab, tok)])
  | .node lab cs, i =>
    let r := preprosessC cs i
    (.node (cleanLabel lab) r.1, r.2)

/-- The child loop of `_preprosess`'s `__iterate`. -/
def preprosessC : List STree → Nat → List NTree × List (String × String)
  | [], _ => ([], [])
  | c :: cs, i =>
    let rc := preprosessT c i
    let rcs := preprosessC cs (i + rc.2.length)
    (rc.1 :: rcs.1, rc.2 ++ rcs.2)

end

/-- `_preprosess`: indices start at 1 at the root. -/
def preprosess (root : STree) : NTree × List (String × String) :=
  preprosessT root 1

/-! ## `Convertor.__mark_heads` -/

/-- The head part `label().split('|')[0]` of a marked tree's label. -/
def headV : HTree → HeadV
  | .leaf i _ => .inl i
  | .node h lab _ => h.getD (.inr lab)

/-- The category part of a marked label for the unpacking
`_i, _tag = t.label().split('|')`: `none` when the label has no `'|'`
(the node never received a head), in which case Python's unpacking would
raise; the total model treats such a child as matching no tag. -/
def tagV : HTree → Option String
  | .leaf _ c => some c
  | .node (some _) c _ => some c
  | .node none _ _ => none

/-- The child scan order of a rule: `sub_labels[::-1]` exactly when the
direction token is `'r'`. -/
def scanOrder (dir : String) (cs : List HTree) : List HTree :=
  if dir == "r" then cs.reverse else cs

/-- The tag loop of `__mark_heads`: for each priority tag in order, if
some scanned child's category equals the tag, the head is the head part
of the first such child in scan order. -/
def findTag : List String → List HTree → Option HeadV
  | [], _ => none
  | tg :: tgs, sl =>
    if sl.any (fun c => decide (tagV c = some tg)) then
      (sl.find? (fun c => decide (tagV c = some tg))).map headV
    else findTag tgs sl

/-- One rule of the rule loop: an empty tag list selects the first child
in scan order (`sub_labels[0][0]`), otherwise the tag loop runs. -/
def tryRule (r : HeadRule) (cs : List HTree) : Option HeadV :=
  let sl := scanOrder r.direction cs
  if r.tags.isEmpty then sl.head?.map headV
  else findTag r.tags sl

/-- The rule loop of `__mark_heads`: rules are tried in listed order and
the first one that returns a head wins. -/
def findRule : List HeadRule → List HTree → Option HeadV
  | [], _ => none
  | r :: rs, cs =>
    match tryRule r cs with
    | some h => some h
    | none => findRule rs cs

/-- Head selection for one internal node with already-marked children:
the last child's head part if the category has no rule entry, else the
rule loop's result (`none` when no rule fires, leaving the label bare). -/
def chooseHead (tbl : RuleTable) (lab : String) (cs : List HTree) : Option HeadV :=
  match dictGet? tbl lab with
  | none => cs.getLast?.map headV
  | some rules => findRule rules cs

mutual

/-- `__mark_heads`'s `__iterate` on one subtree: a leaf's label becomes
`'{token}|{label}'`; an internal node first marks its children, then
selects its head by `chooseHead`. -/
def markHeadsT (tbl : RuleTable) : NTree → HTree
  | .leaf lab tok => .leaf tok lab
  | .node lab cs =>
    let cs' := markHeadsC tbl cs
    .node (chooseHead tbl lab cs') lab cs'

/-- The child loop of `__mark_heads`'s `__iterate`. -/
def markHeadsC (tbl : RuleTable) : List NTree → List HTree
  | [] => []
  | c :: cs => markHeadsT tbl c :: markHeadsC tbl cs

end

/-! ## `_get_relations` -/

mutual

/-- The non-root yields of `_get_relations`'s `__iterate` below a node:
for every child whose head part differs from the node's, the pair
`(child head, node head)`, followed by the child's own yields. -/
def relsT : HTree → List (HeadV × HeadV)
  | .leaf _ _ => []
  | .node h lab cs => relsC (h.getD (.inr lab)) cs

/-- The child loop of `_get_relations`'s `__iterate`, given the parent's
head part. -/
def relsC (p : HeadV) : List HTree → List (HeadV × HeadV)
  | [] => []
  | c :: cs =>
    (if headV c = p then [] else [(headV c, p)]) ++ relsT c ++ relsC p cs

end

/-- All yields of `_get_relations`'s `__iterate` at the root: the root's
`(head, 0)` pair first (its parent is `None`), then the recursive
yields. -/
def relsAll (root : HTree) : List (HeadV × HeadV) :=
  (headV root, .inl 0) :: relsT root

/-- The sort key `int(r[0])` of `_get_relations`, when it parses: an
`inl` head part is already an integer's decimal string, an `inr` one is a
raw category fed to `int`. -/
def relKey? (r : HeadV × HeadV) : Option Nat :=
  match r.1 with
  | .inl n => some n
  | .inr s => pyToNat? s

/-- Total version of the sort key, meaningful on the pairs whose key
parses. -/
def relKey (r : HeadV × HeadV) : Nat :=
  (relKey? r).getD 0

/-- The comparison of Python's `sorted(..., key=lambda r: int(r[0]))`. -/
def relLE (a b : HeadV × HeadV) : Prop :=
  relKey a ≤ relKey b

instance : DecidableRel relLE := fun a b => Nat.decLe (relKey a) (relKey b)

instance : IsTotal (HeadV × HeadV) relLE :=
  ⟨fun a b => Nat.le_total (relKey a) (relKey b)⟩

instance : IsTrans (HeadV × HeadV) relLE :=
  ⟨fun _ _ _ h1 h2 => Nat.le_trans h1 h2⟩

/-- `_get_relations`: collect the yields and sort them by `int(r[0])`;
`sorted` computes all keys up front, so a single unparseable head part
raises `ValueError`.  Python's sort is stable; `List.insertionSort` is a
stable sort, and all theorems below concern runs with pairwise distinct
keys, where every stable sort agrees with Python's. -/
def getRelations (root : HTree) : Except String (List (HeadV × HeadV)) :=
  let l := relsAll root
  if l.all (fun r => (relKey? r).isSome) then
    .ok (List.insertionSort relLE l)
  else .error "ValueError: invalid literal for int()"

/-! ## Structural measures and predicates -/

mutual

/-- Number of leaves of a raw tree. -/
def numLeavesS : STree → Nat
  | .leaf _ _ => 1
  | .node _ cs => numLeavesC cs

/-- Number of leaves of a list of raw trees. -/
def numLeavesC : List STree → Nat
  | [] => 0
  | c :: cs => numLeavesS c + numLeavesC cs

end

mutual

/-- Structural well-formedness of an input tree: every internal node has
at least one child (`tree[-1]` and `sub_labels[0]` would raise
otherwise). -/
def wfS : STree → Bool
  | .leaf _ _ => true
  | .node _ cs => !cs.isEmpty && wfSC cs

/-- Well-formedness of a list of raw trees. -/
def wfSC : List STree → Bool
  | [] => true
  | c :: cs => wfS c && wfSC cs

end

mutual

/-- Structural well-formedness of a preprocessed tree. -/
def wfN : NTree → Bool
  | .leaf _ _ => true
  | .node _ cs => !cs.isEmpty && wfNC cs

/-- Well-formedness of a list of preprocessed trees. -/
def wfNC : List NTree → Bool
  | [] => true
  | c :: cs => wfN c && wfNC cs

end

mutual

/-- The marking resolved every node: every internal node received a head
and that head is an integer index (no unresolved category leaked into a
head position). -/
def markedT : HTree → Bool
  | .leaf _ _ => true
  | .node h _ cs =>
    (match h with
     | some (.inl _) => true
     | _ => false) && markedC cs

/-- Full marking of a list of marked trees. -/
def markedC : List HTree → Bool
  | [] => true
  | c :: cs => markedT c && markedC cs

end

mutual

/-- The leaf indices of a marked tree in left-to-right order. -/
def leavesIdx : HTree → List Nat
  | .leaf i _ => [i]
  | .node _ _ cs => leavesIdxC cs

/-- The leaf indices of a list of marked trees. -/
def leavesIdxC : List HTree → List Nat
  | [] => []
  | c :: cs => leavesIdx c ++ leavesIdxC cs

end

mutual

/-- The leaf tokens (indices) of a preprocessed tree in left-to-right
order. -/
def ntokens : NTree → List Nat
  | .leaf _ i => [i]
  | .node _ cs => ntokensC cs

/-- The leaf tokens of a list of preprocessed trees. -/
def ntokensC : List NTree → List Nat
  | [] => []
  | c :: cs => ntokens c ++ ntokensC cs

end

/-- The head index of a marked tree (meaningful under `markedT`). -/
def headIdx (t : HTree) : Nat :=
  match headV t with
  | .inl n => n
  | .inr _ => 0

/-- The dependent indices of the non-root relations below a marked tree,
through the sort key. -/
def depsOf (m : HTree) : List Nat :=
  (relsT m).map relKey

mutual

/-- The sequence the specification describes for `_preprosess`: one
`(cleaned category, original token)` pair per leaf, in left-to-right
order. -/
def specLeafPairs : STree → List (String × String)
  | .leaf lab tok => [(cleanLabel lab, tok)]
  | .node _ cs => specLeafPairsC cs

/-- The specification sequence of a list of raw trees. -/
def specLeafPairsC : List STree → List (String × String)
  | [] => []
  | c :: cs => specLeafPairs c ++ specLeafPairsC cs

end

/-- Following one dependency link: the unique relation whose dependent is
`a` gives the integer head to move to (`none` if absent or if the head
position holds an unparsed category). -/
def parentOf (rels : List (HeadV × HeadV)) (a : Nat) : Option Nat :=
  match rels.find? (fun r => decide (r.1 = Sum.inl a)) with
  | some (_, .inl b) => some b
  | _ => none

/-! ## Heap model of the two copy-then-mutate passes

Both `_preprosess` and `__mark_heads` start with
`root = root.copy(deep=True)` and mutate (`set_label`, `tree[0] = index`)
only nodes of that copy.  To state that the caller's tree is never
mutated, the same passes are modelled once more against an explicit
object heap: nodes live at addresses, a deep copy allocates fresh
addresses from a counter, and every mutation is an address update.  The
`AShape` argument is the node-address skeleton of the tree being
traversed; labels and token values are read from the heap, exactly as the
source reads them from the object graph.  The nltk parent back-pointers
are not represented: the source only reads them. -/

/-- A Python value stored in a tree node's child slot: a token string, an
integer index, or a reference to a subtree object. -/
inductive PVal where
  | str (s : String)
  | num (n : Nat)
  | ptr (a : Nat)
deriving Repr, DecidableEq

/-- One tree object in the heap: its label and its child slots. -/
structure PNode where
  label : String
  children : List PVal
deriving Repr, DecidableEq

/-- The object heap: a partial map from addresses to tree objects. -/
def Heap := Nat → Option PNode

/-- Updating the object at one address (an in-place mutation or a fresh
allocation). -/
def hupd (h : Heap) (a : Nat) (n : PNode) : Heap :=
  fun x => if x = a then some n else h x

/-- The address skeleton of a tree: each node's address, with the
children's skeletons. -/
inductive AShape where
  | leaf (a : Nat)
  | node (a : Nat) (children : List AShape)
deriving Repr

/-- The root address of a skeleton. -/
def shapeAddr : AShape → Nat
  | .leaf a => a
  | .node a _ => a

mutual

/-- All addresses of a skeleton. -/
def shapeAddrs : AShape → List Nat
  | .leaf a => [a]
  | .node a cs => a :: shapeAddrsC cs

/-- All addresses of a list of skeletons. -/
def shapeAddrsC : List AShape → List Nat
  | [] => []
  | s :: ss => shapeAddrs s ++ shapeAddrsC ss

end

/-- Reading `tree.label()` at an address. -/
def labelAt (h : Heap) (a : Nat) : String :=
  match h a with
  | some n => n.label
  | none => ""

/-- Reading a node's child slots at an address. -/
def childrenAt (h : Heap) (a : Nat) : List PVal :=
  match h a with
  | some n => n.children
  | none => []

mutual

/-- `tree.copy(deep=True)`: allocates a fresh copy of every node at
addresses counting up from `c`, sharing no address with the original;
child slots of the copy point at the copied children. -/
def copyDeepT : AShape → Heap → Nat → AShape × Heap × Nat
  | .leaf a, h, c => (.leaf c, hupd h c ⟨labelAt h a, childrenAt h a⟩, c + 1)
  | .node a cs, h, c =>
    let r := copyDeepC cs h c
    (.node r.2.2 r.1,
     hupd r.2.1 r.2.2 ⟨labelAt h a, r.1.map (fun s => .ptr (shapeAddr s))⟩,
     r.2.2 + 1)

/-- Deep copy of a list of children. -/
def copyDeepC : List AShape → Heap → Nat → List AShape × Heap × Nat
  | [], h, c => ([], h, c)
  | s :: ss, h, c =>
    let r1 := copyDeepT s h c
    let r2 := copyDeepC ss r1.2.1 r1.2.2
    (r1.1 :: r2.1, r2.2.1, r2.2.2)

end

/-- The label cleaning of `_preprosess` as a heap mutation:
`tree.set_label(tree.label().split('-')[0])` when `'-' in tree.label()`. -/
def cleanLabelAt (h : Heap) (a : Nat) : Heap :=
  let lab := labelAt h a
  if lab.data.contains '-' then hupd h a ⟨cleanLabel lab, childrenAt h a⟩ else h

mutual

/-- The mutation pass of `_preprosess`'s `__iterate` on the copied tree:
clean the label of every node, and overwrite each leaf's token slot with
its index (`tree[0] = index`). -/
def preMutT : AShape → Heap → Nat → Heap × Nat
  | .leaf a, h, i =>
    let h1 := cleanLabelAt h a
    (hupd h1 a ⟨labelAt h1 a, [.num i]⟩, i + 1)
  | .node a cs, h, i =>
    preMutC cs (cleanLabelAt h a) i

/-- The child loop of `_preprosess`'s mutation pass. -/
def preMutC : List AShape → Heap → Nat → Heap × Nat
  | [], h, i => (h, i)
  | s :: ss, h, i =>
    let r := preMutT s h i
    preMutC ss r.1 r.2

end

/-- Formatting a child slot value with `'{}'.format`, as the leaf label
rewrite of `__mark_heads` does to `tree[0]`. -/
def pvalFormat : PVal → String
  | .str s => s
  | .num n => toString n
  | .ptr a => toString a

/-- The tag loop of `__mark_heads` on raw split labels: first priority
tag whose category part (`sub_label[1]`) matches some child, then the
head part (`sub_label[0]`) of the first matching child in scan order. -/
def findTagS : List String → List (List String) → Option String
  | [], _ => none
  | tg :: tgs, subs =>
    if subs.any (fun sl => decide (sl[1]? = some tg)) then
      (subs.find? (fun sl => decide (sl[1]? = some tg))).bind List.head?
    else findTagS tgs subs

/-- The rule loop of `__mark_heads` on raw split labels. -/
def findRuleS : List HeadRule → List (List String) → Option String
  | [], _ => none
  | r :: rs, subs =>
    let sl := if r.direction == "r" then subs.reverse else subs
    if r.tags.isEmpty then sl.head?.bind List.head?
    else
      match findTagS r.tags sl with
      | some i => some i
      | none => findRuleS rs subs

/-- The new label an internal node receives from the rule search of
`__mark_heads`, over the raw split labels of its children: the last
child's head part under the fallback, the rule loop's winner otherwise,
and `none` (no `set_label` call) when no rule fires. -/
def markLabel? (tbl : RuleTable) (lab : String) (subs : List (List String)) :
    Option String :=
  match dictGet? tbl lab with
  | none =>
    match subs.getLast? with
    | some sl => some (sl.headD "" ++ "|" ++ lab)
    | none => none
  | some rules =>
    match findRuleS rules subs with
    | some i => some (i ++ "|" ++ lab)
    | none => none

/-- Performing a `set_label` at an address when a new label was selected,
leaving the heap untouched otherwise. -/
def writeLab (h : Heap) (a : Nat) : Option String → Heap
  | some newLab => hupd h a ⟨newLab, childrenAt h a⟩
  | none => h

mutual

/-- The mutation pass of `__mark_heads`'s `__iterate` on the copied
preprocessed tree: rewrite each leaf label to `'{token}|{label}'`, then
each resolved internal node's label to `'{head}|{label}'`, children
first. -/
def markMutT (tbl : RuleTable) : AShape → Heap → Heap
  | .leaf a, h =>
    hupd h a
      ⟨pvalFormat ((childrenAt h a).headD (.str "")) ++ "|" ++ labelAt h a,
       childrenAt h a⟩
  | .node a cs, h =>
    let h1 := markMutC tbl cs h
    writeLab h1 a
      (markLabel? tbl (labelAt h1 a)
        (cs.map (fun s => pySplitOn (labelAt h1 (shapeAddr s)) '|')))

/-- The child loop of `__mark_heads`'s mutation pass. -/
def markMutC (tbl : RuleTable) : List AShape → Heap → Heap
  | [], h => h
  | s :: ss, h => markMutC tbl ss (markMutT tbl s h)

end

/-- `Convertor.__parse` at heap level, up to head marking: `_preprosess`
copies the input tree and mutates the copy, then `__mark_heads` copies
the preprocessed tree and mutates that copy (`_get_relations` only
reads).  Returns the marked tree's skeleton, the final heap, and the
allocation counter. -/
def parseHeap (tbl : RuleTable) (t : AShape) (h : Heap) (c : Nat) :
    AShape × Heap × Nat :=
  let r1 := copyDeepT t h c
  let r2 := preMutT r1.1 r1.2.1 1
  let r3 := copyDeepT r1.1 r2.1 r1.2.2
  let r4 := markMutT tbl r3.1 r3.2.1
  (r3.1, r4, r3.2.2)

/-! ## Induction principles for the nested tree types -/

/-- Structural induction for raw trees with a membership-indexed
hypothesis for children. -/
def STree.recMem {P : STree → Prop}
    (hleaf : ∀ lab tok, P (.leaf lab tok))
    (hnode : ∀ lab cs, (∀ c ∈ cs, P c) → P (.node lab cs)) : ∀ t, P t
  | .leaf lab tok => hleaf lab tok
  | .node lab cs => hnode lab cs (fun c hc =>
      have : sizeOf c < sizeOf (STree.node lab cs) := by
        have := List.sizeOf_lt_of_mem hc
        simp only [STree.node.sizeOf_spec]
        omega
      STree.recMem hleaf hnode c)
termination_by t => sizeOf t

/-- Structural induction for preprocessed trees with a membership-indexed
hypothesis for children. -/
def NTree.recMem {P : NTree → Prop}
    (hleaf : ∀ lab tok, P (.leaf lab tok))
    (hnode : ∀ lab cs, (∀ c ∈ cs, P c) → P (.node lab cs)) : ∀ t, P t
  | .leaf lab tok => hleaf lab tok
  | .node lab cs => hnode lab cs (fun c hc =>
      have : sizeOf c < sizeOf (NTree.node lab cs) := by
        have := List.sizeOf_lt_of_mem hc
        simp only [NTree.node.sizeOf_spec]
        omega
      NTree.recMem hleaf hnode c)
termination_by t => sizeOf t

/-- Structural induction for marked trees with a membership-indexed
hypothesis for children. -/
def HTree.recMem {P : HTree → Prop}
    (hleaf : ∀ i cat, P (.leaf i cat))
    (hnode : ∀ hd cat cs, (∀ c ∈ cs, P c) → P (.node hd cat cs)) : ∀ t, P t
  | .leaf i cat => hleaf i cat
  | .node hd cat cs => hnode hd cat cs (fun c hc =>
      have : sizeOf c < sizeOf (HTree.node hd cat cs) := by
        have := List.sizeOf_lt_of_mem hc
        simp only [HTree.node.sizeOf_spec]
        omega
      HTree.recMem hleaf hnode c)
termination_by t => sizeOf t

/-- Structural induction for address skeletons with a membership-indexed
hypothesis for children. -/
def AShape.recMem {P : AShape → Prop}
    (hleaf : ∀ a, P (.leaf a))
    (hnode : ∀ a cs, (∀ s ∈ cs, P s) → P (.node a cs)) : ∀ t, P t
  | .leaf a => hleaf a
  | .node a cs => hnode a cs (fun s hs =>
      have : sizeOf s < sizeOf (AShape.node a cs) := by
        have := List.sizeOf_lt_of_mem hs
        simp only [AShape.node.sizeOf_spec]
        omega
      AShape.recMem hleaf hnode s)
termination_by t => sizeOf t

mutual

/-- Every resolved head of a marked tree is the head part of one of the
node's children — the structural residue of `chooseHead` that the
relation-extraction proofs rely on. -/
def goodT : HTree → Bool
  | .leaf _ _ => true
  | .node h _ cs =>
    (match h with
     | some v => cs.any (fun c => decide (headV c = v))
     | none => true) && goodC cs

/-- `goodT` for every tree of a list. -/
def goodC : List HTree → Bool
  | [] => true
  | c :: cs => goodT c && goodC cs

end

/-! ## Basic structural lemmas -/

theorem markHeadsC_eq_map (tbl : RuleTable) (cs : List NTree) :
    markHeadsC tbl cs = cs.map (markHeadsT tbl) := by
  induction cs with
  | nil => rfl
  | cons c cs ih => simp [markHeadsC, ih]

theorem wfNC_forall (cs : List NTree) :
    wfNC cs = true ↔ ∀ c ∈ cs, wfN c = true := by
  induction cs with
  | nil => simp [wfNC]
  | cons c cs ih => simp [wfNC, ih]

theorem wfSC_forall (cs : List STree) :
    wfSC cs = true ↔ ∀ c ∈ cs, wfS c = true := by
  induction cs with
  | nil => simp [wfSC]
  | cons c cs ih => simp [wfSC, ih]

theorem markedC_forall (cs : List HTree) :
    markedC cs = true ↔ ∀ c ∈ cs, markedT c = true := by
  induction cs with
  | nil => simp [markedC]
  | cons c cs ih => simp [markedC, ih]

theorem headV_of_marked {m : HTree} (h : markedT m = true) :
    headV m = .inl (headIdx m) := by
  cases m with
  | leaf i c => rfl
  | node hd lab cs =>
    cases hd with
    | none => simp [markedT] at h
    | some v =>
      cases v with
      | inl n => rfl
      | inr s => simp [markedT] at h

theorem marked_node_children {hd : Option HeadV} {lab : String} {cs : List HTree}
    (h : markedT (.node hd lab cs) = true) : markedC cs = true := by
  cases hd with
  | none => simp [markedT] at h
  | some v =>
    cases v with
    | inl n => simpa [markedT] using h
    | inr s => simp [markedT] at h

theorem marked_node_head {hd : Option HeadV} {lab : String} {cs : List HTree}
    (h : markedT (.node hd lab cs) = true) :
    hd = some (.inl (headIdx (.node hd lab cs))) := by
  cases hd with
  | none => simp [markedT] at h
  | some v =>
    cases v with
    | inl n => rfl
    | inr s => simp [markedT] at h

theorem leavesIdxC_append (cs1 cs2 : List HTree) :
    leavesIdxC (cs1 ++ cs2) = leavesIdxC cs1 ++ leavesIdxC cs2 := by
  induction cs1 with
  | nil => rfl
  | cons c cs ih => simp [leavesIdxC, ih]

theorem leavesIdx_markHeadsT (tbl : RuleTable) :
    ∀ u : NTree, leavesIdx (markHeadsT tbl u) = ntokens u := by
  refine NTree.recMem (fun lab tok => rfl) (fun lab cs ih => ?_)
  show leavesIdxC (markHeadsC tbl cs) = ntokensC cs
  induction cs with
  | nil => rfl
  | cons c cs ihc =>
    simp only [markHeadsC, leavesIdxC, ntokensC]
    rw [ih c (by simp), ihc (fun c hc => ih c (by simp [hc]))]

/-! ## `_preprosess` correctness -/

theorem preprosessC_spec (cs : List STree)
    (ih : ∀ c ∈ cs, ∀ i : Nat,
      (preprosessT c i).2.length = numLeavesS c ∧
      ntokens (preprosessT c i).1 = List.range' i (numLeavesS c) ∧
      (preprosessT c i).2 = specLeafPairs c ∧
      (wfS c = true → wfN (preprosessT c i).1 = true)) :
    ∀ i : Nat,
      (preprosessC cs i).2.length = numLeavesC cs ∧
      ntokensC (preprosessC cs i).1 = List.range' i (numLeavesC cs) ∧
      (preprosessC cs i).2 = specLeafPairsC cs ∧
      (preprosessC cs i).1.length = cs.length ∧
      (wfSC cs = true → wfNC (preprosessC cs i).1 = true) := by
  induction cs with
  | nil => intro i; simp [preprosessC, numLeavesC, ntokensC, specLeafPairsC, wfNC]
  | cons c cs ihc =>
    intro i
    obtain ⟨hc1, hc2, hc3, hc4⟩ := ih c (by simp) i
    have hcs := ihc (fun c hc => ih c (by simp [hc])) (i + (preprosessT c i).2.length)
    rw [hc1] at hcs
    obtain ⟨hs1, hs2, hs3, hs4, hs5⟩ := hcs
    simp only [preprosessC, numLeavesC, ntokensC, specLeafPairsC, List.length_append,
      List.length_cons, wfSC, wfNC]
    rw [hc1, hc2, hc3, hs1, hs2, hs3, hs4]
    refine ⟨rfl, ?_, rfl, rfl, ?_⟩
    · have := List.range'_append i (numLeavesS c) (numLeavesC cs) 1
      simpa [Nat.add_comm] using this
    · intro hwf
      simp only [Bool.and_eq_true] at hwf
      simp only [Bool.and_eq_true]
      exact ⟨hc4 hwf.1, hs5 hwf.2⟩

theorem preprosessT_spec : ∀ (t : STree) (i : Nat),
    (preprosessT t i).2.length = numLeavesS t ∧
    ntokens (preprosessT t i).1 = List.range' i (numLeavesS t) ∧
    (preprosessT t i).2 = specLeafPairs t ∧
    (wfS t = true → wfN (preprosessT t i).1 = true) := by
  refine STree.recMem (fun lab tok i => ?_) (fun lab cs ih i => ?_)
  · simp [preprosessT, numLeavesS, ntokens, specLeafPairs, wfN, List.range'_one]
  · have h := preprosessC_spec cs ih i
    simp only [preprosessT, numLeavesS, ntokens, specLeafPairs, wfS, wfN]
    refine ⟨h.1, h.2.1, h.2.2.1, ?_⟩
    intro hwf
    simp only [Bool.and_eq_true, Bool.not_eq_true'] at hwf ⊢
    constructor
    · have : (preprosessC cs i).1.length = cs.length := h.2.2.2.1
      cases hempty : (preprosessC cs i).1 with
      | nil =>
        exfalso
        rw [hempty] at this
        cases cs with
        | nil => simp [List.isEmpty] at hwf
        | cons a l => simp at this
      | cons a l => simp [List.isEmpty]
    · exact h.2.2.2.2 hwf.2

/-! ## The selected head is some child's head -/

theorem findTag_mem {tgs : List String} {sl : List HTree} {v : HeadV}
    (h : findTag tgs sl = some v) : ∃ c ∈ sl, headV c = v := by
  induction tgs with
  | nil => simp [findTag] at h
  | cons tg tgs ih =>
    rw [findTag] at h
    split at h
    · cases hf : sl.find? (fun c => decide (tagV c = some tg)) with
      | none => rw [hf] at h; simp at h
      | some c =>
        rw [hf] at h
        simp only [Option.map_some'] at h
        exact ⟨c, List.mem_of_find?_eq_some hf, by injection h⟩
    · exact ih h

theorem tryRule_mem {r : HeadRule} {cs : List HTree} {v : HeadV}
    (h : tryRule r cs = some v) : ∃ c ∈ cs, headV c = v := by
  rw [tryRule] at h
  have hscan : ∀ c, c ∈ scanOrder r.direction cs → c ∈ cs := by
    intro c hc
    unfold scanOrder at hc
    split at hc
    · exact List.mem_reverse.mp hc
    · exact hc
  split at h
  · cases hh : (scanOrder r.direction cs).head? with
    | none => rw [hh] at h; simp at h
    | some c =>
      rw [hh] at h
      simp only [Option.map_some'] at h
      exact ⟨c, hscan c (List.mem_of_mem_head? (by rw [hh]; rfl)), by injection h⟩
  · obtain ⟨c, hc, hv⟩ := findTag_mem h
    exact ⟨c, hscan c hc, hv⟩

theorem findRule_mem {rules : List HeadRule} {cs : List HTree} {v : HeadV}
    (h : findRule rules cs = some v) : ∃ c ∈ cs, headV c = v := by
  induction rules with
  | nil => simp [findRule] at h
  | cons r rs ih =>
    rw [findRule] at h
    split at h
    · next heq => injection h with h'; subst h'; exact tryRule_mem heq
    · exact ih h

theorem chooseHead_mem {tbl : RuleTable} {lab : String} {cs : List HTree} {v : HeadV}
    (h : chooseHead tbl lab cs = some v) : ∃ c ∈ cs, headV c = v := by
  rw [chooseHead] at h
  split at h
  · cases hl : cs.getLast? with
    | none => rw [hl] at h; simp at h
    | some c =>
      rw [hl] at h
      simp only [Option.map_some'] at h
      exact ⟨c, List.mem_of_mem_getLast? (by rw [hl]; rfl), by injection h⟩
  · exact findRule_mem h

theorem goodC_forall (cs : List HTree) :
    goodC cs = true ↔ ∀ c ∈ cs, goodT c = true := by
  induction cs with
  | nil => simp [goodC]
  | cons c cs ih => simp [goodC, ih]

theorem markHeadsT_node (tbl : RuleTable) (lab : String) (cs : List NTree) :
    markHeadsT tbl (.node lab cs) =
      .node (chooseHead tbl lab (markHeadsC tbl cs)) lab (markHeadsC tbl cs) := by
  simp [markHeadsT]

theorem good_markHeadsT (tbl : RuleTable) :
    ∀ u : NTree, goodT (markHeadsT tbl u) = true := by
  refine NTree.recMem (fun lab tok => rfl) (fun lab cs ih => ?_)
  rw [markHeadsT_node]
  have hlist : goodC (markHeadsC tbl cs) = true := by
    rw [goodC_forall, markHeadsC_eq_map]
    intro c' hc'
    obtain ⟨c, hc, rfl⟩ := List.mem_map.mp hc'
    exact ih c hc
  cases hch : chooseHead tbl lab (markHeadsC tbl cs) with
  | none => simp [goodT, hlist]
  | some v =>
    obtain ⟨c, hcmem, hcv⟩ := chooseHead_mem hch
    simp only [goodT, hlist, Bool.and_true, List.any_eq_true, decide_eq_true_eq]
    exact ⟨c, hcmem, hcv⟩

theorem marked_node_ex {hd : Option HeadV} {lab : String} {cs : List HTree}
    (h : markedT (.node hd lab cs) = true) : ∃ n : Nat, hd = some (Sum.inl n) := by
  cases hd with
  | none => simp [markedT] at h
  | some v =>
    cases v with
    | inl n => exact ⟨n, rfl⟩
    | inr s => simp [markedT] at h

theorem leavesIdx_subset {c : HTree} {cs : List HTree} (hc : c ∈ cs) :
    leavesIdx c ⊆ leavesIdxC cs := by
  induction cs with
  | nil => cases hc
  | cons a l ih =>
    rcases List.mem_cons.mp hc with h | h
    · subst h; rw [leavesIdxC]; exact List.subset_append_left _ _
    · rw [leavesIdxC]; exact (ih h).trans (List.subset_append_right _ _)

theorem nodup_leavesIdx_of_mem {c : HTree} {cs : List HTree} (hc : c ∈ cs)
    (h : (leavesIdxC cs).Nodup) : (leavesIdx c).Nodup := by
  induction cs with
  | nil => cases hc
  | cons a l ih =>
    rw [leavesIdxC, List.nodup_append] at h
    rcases List.mem_cons.mp hc with he | he
    · subst he; exact h.1
    · exact ih he h.2.1

theorem leaves_overlap_eq {cs : List HTree} (h : (leavesIdxC cs).Nodup)
    {c1 c2 : HTree} (h1 : c1 ∈ cs) (h2 : c2 ∈ cs) {x : Nat}
    (hx1 : x ∈ leavesIdx c1) (hx2 : x ∈ leavesIdx c2) : c1 = c2 := by
  induction cs with
  | nil => cases h1
  | cons a l ih =>
    rw [leavesIdxC, List.nodup_append] at h
    rcases List.mem_cons.mp h1 with e1 | e1 <;> rcases List.mem_cons.mp h2 with e2 | e2
    · subst e1; subst e2; rfl
    · subst e1
      exact absurd (h.2.2 hx1 (leavesIdx_subset e2 hx2)) not_false
    · subst e2
      exact absurd (h.2.2 hx2 (leavesIdx_subset e1 hx1)) not_false
    · exact ih h.2.1 e1 e2

theorem relKey_inl (a : Nat) (b : HeadV) : relKey (Sum.inl a, b) = a := rfl

theorem mem_relsC {p : HeadV} {r : HeadV × HeadV} : ∀ {cs : List HTree},
    r ∈ relsC p cs ↔ ∃ c ∈ cs, (r = (headV c, p) ∧ headV c ≠ p) ∨ r ∈ relsT c := by
  intro cs
  induction cs with
  | nil => simp [relsC]
  | cons c cs ih =>
    rw [relsC, List.mem_append, List.mem_append, ih]
    by_cases hc : headV c = p
    · simp [hc]
    · simp [hc]

theorem headIdx_node_inl (n : Nat) (cat : String) (cs : List HTree) :
    headIdx (HTree.node (some (Sum.inl n)) cat cs) = n := rfl

theorem headV_node_inl (n : Nat) (cat : String) (cs : List HTree) :
    headV (HTree.node (some (Sum.inl n)) cat cs) = Sum.inl n := rfl

theorem leavesIdx_node (hd : Option HeadV) (cat : String) (cs : List HTree) :
    leavesIdx (HTree.node hd cat cs) = leavesIdxC cs := by
  rw [leavesIdx]

theorem relsT_node_inl (n : Nat) (cat : String) (cs : List HTree) :
    relsT (HTree.node (some (Sum.inl n)) cat cs) = relsC (Sum.inl n) cs := by
  rw [relsT]; rfl

theorem depsC_perm_no_head {n : Nat} : ∀ {cs : List HTree},
    (∀ c ∈ cs, markedT c = true) →
    (∀ c ∈ cs, (headIdx c :: depsOf c).Perm (leavesIdx c)) →
    (∀ c ∈ cs, headIdx c ≠ n) →
    ((relsC (Sum.inl n) cs).map relKey).Perm (leavesIdxC cs) := by
  intro cs
  induction cs with
  | nil => intro _ _ _; simp [relsC, leavesIdxC]
  | cons c cs ih =>
    intro hm hp hn
    have hvc : headV c = Sum.inl (headIdx c) := headV_of_marked (hm c (by simp))
    have hne : ¬ (headV c = Sum.inl n) := by
      rw [hvc]; intro h; exact hn c (by simp) (by injection h)
    have h1 : (relsC (Sum.inl n) (c :: cs)).map relKey =
        (headIdx c :: depsOf c) ++ (relsC (Sum.inl n) cs).map relKey := by
      rw [relsC, if_neg hne, hvc]
      simp [depsOf, List.map_append, relKey_inl]
    rw [h1, leavesIdxC]
    exact List.Perm.append (hp c (by simp))
      (ih (fun c h => hm c (by simp [h])) (fun c h => hp c (by simp [h]))
        (fun c h => hn c (by simp [h])))

theorem depsC_perm_head {n : Nat} : ∀ {cs : List HTree},
    (∀ c ∈ cs, markedT c = true) →
    (∀ c ∈ cs, (headIdx c :: depsOf c).Perm (leavesIdx c)) →
    (∀ c ∈ cs, headIdx c ∈ leavesIdx c) →
    (leavesIdxC cs).Nodup →
    (∃ c ∈ cs, headIdx c = n) →
    (n :: (relsC (Sum.inl n) cs).map relKey).Perm (leavesIdxC cs) := by
  intro cs
  induction cs with
  | nil =>
    rintro _ _ _ _ ⟨c, hc, _⟩
    cases hc
  | cons c cs ih =>
    intro hm hp hmem hnd hex
    have hvc : headV c = Sum.inl (headIdx c) := headV_of_marked (hm c (by simp))
    rw [leavesIdxC, List.nodup_append] at hnd
    by_cases hcn : headIdx c = n
    · have hrest : ∀ c' ∈ cs, headIdx c' ≠ n := by
        intro c' hc' hc'n
        have h1 : n ∈ leavesIdx c := hcn ▸ hmem c (by simp)
        have h2 : n ∈ leavesIdxC cs :=
          leavesIdx_subset hc' (hc'n ▸ hmem c' (by simp [hc']))
        exact hnd.2.2 h1 h2
      have heq : headV c = Sum.inl n := by rw [hvc, hcn]
      have h1 : (relsC (Sum.inl n) (c :: cs)).map relKey =
          depsOf c ++ (relsC (Sum.inl n) cs).map relKey := by
        rw [relsC, if_pos heq]
        simp [depsOf, List.map_append, relKey_inl]
      have hA : (n :: depsOf c).Perm (leavesIdx c) := by
        have := hp c (by simp)
        rwa [hcn] at this
      have hB : ((relsC (Sum.inl n) cs).map relKey).Perm (leavesIdxC cs) :=
        depsC_perm_no_head (fun c h => hm c (by simp [h]))
          (fun c h => hp c (by simp [h])) hrest
      rw [h1, leavesIdxC]
      exact List.Perm.append hA hB
    · have hex' : ∃ c0 ∈ cs, headIdx c0 = n := by
        obtain ⟨c0, hc0, hc0n⟩ := hex
        rcases List.mem_cons.mp hc0 with e | e
        · subst e; exact absurd hc0n hcn
        · exact ⟨c0, e, hc0n⟩
      have hne : ¬ (headV c = Sum.inl n) := by
        rw [hvc]; intro hh; exact hcn (by injection hh)
      have h1 : (relsC (Sum.inl n) (c :: cs)).map relKey =
          (headIdx c :: depsOf c) ++ (relsC (Sum.inl n) cs).map relKey := by
        rw [relsC, if_neg hne, hvc]
        simp [depsOf, List.map_append, relKey_inl]
      have hB : (n :: (relsC (Sum.inl n) cs).map relKey).Perm (leavesIdxC cs) :=
        ih (fun c h => hm c (by simp [h])) (fun c h => hp c (by simp [h]))
          (fun c h => hmem c (by simp [h])) hnd.2.1 hex'
      rw [h1, leavesIdxC]
      exact List.Perm.trans List.perm_middle.symm
        (List.Perm.append (hp c (by simp)) hB)

theorem rels_struct : ∀ m : HTree, goodT m = true → markedT m = true →
    (leavesIdx m).Nodup →
    headIdx m ∈ leavesIdx m ∧
    (∀ r ∈ relsT m, r.1 = Sum.inl (relKey r) ∧ ∃ b ∈ leavesIdx m, r.2 = Sum.inl b) ∧
    (headIdx m :: depsOf m).Perm (leavesIdx m) := by
  refine HTree.recMem (fun i cat => ?_) (fun hd cat cs ih => ?_)
  · intro _ _ _
    refine ⟨by simp [leavesIdx, headIdx, headV], ?_, ?_⟩
    · intro r hr
      simp [relsT] at hr
    · simp [leavesIdx, depsOf, relsT, headIdx, headV]
  · intro hg hmk hnd
    obtain ⟨n, rfl⟩ := marked_node_ex hmk
    rw [leavesIdx_node] at hnd ⊢
    rw [headIdx_node_inl, relsT_node_inl]
    have hmc : ∀ c ∈ cs, markedT c = true :=
      (markedC_forall cs).mp (marked_node_children hmk)
    rw [goodT] at hg
    simp only [Bool.and_eq_true, List.any_eq_true, decide_eq_true_eq] at hg
    obtain ⟨⟨ch, hchmem, hchv⟩, hgc⟩ := hg
    have hgcs : ∀ c ∈ cs, goodT c = true := (goodC_forall cs).mp hgc
    have ihs : ∀ c ∈ cs,
        headIdx c ∈ leavesIdx c ∧
        (∀ r ∈ relsT c, r.1 = Sum.inl (relKey r) ∧ ∃ b ∈ leavesIdx c, r.2 = Sum.inl b) ∧
        (headIdx c :: depsOf c).Perm (leavesIdx c) := fun c hc =>
      ih c hc (hgcs c hc) (hmc c hc) (nodup_leavesIdx_of_mem hc hnd)
    have hIdxch : headIdx ch = n := by
      have := headV_of_marked (hmc ch hchmem)
      rw [this] at hchv
      injection hchv
    have hmemn : n ∈ leavesIdxC cs :=
      leavesIdx_subset hchmem (hIdxch ▸ (ihs ch hchmem).1)
    refine ⟨hmemn, ?_, ?_⟩
    · intro r hr
      rcases mem_relsC.mp hr with ⟨c, hc, hcase | hcase⟩
      · obtain ⟨hre, _⟩ := hcase
        subst hre
        rw [headV_of_marked (hmc c hc)]
        exact ⟨by rw [relKey_inl], n, hmemn, rfl⟩
      · obtain ⟨h1, b, hb, h2⟩ := (ihs c hc).2.1 r hcase
        exact ⟨h1, b, leavesIdx_subset hc hb, h2⟩
    · show (n :: (relsC (Sum.inl n) cs).map relKey).Perm (leavesIdxC cs)
      exact depsC_perm_head hmc (fun c hc => (ihs c hc).2.2)
        (fun c hc => (ihs c hc).1) hnd ⟨ch, hchmem, hIdxch⟩

theorem rels_reach : ∀ m : HTree, goodT m = true → markedT m = true →
    (leavesIdx m).Nodup →
    ∀ d ∈ depsOf m, ∃ p : List Nat,
      p.head? = some d ∧ p.getLast? = some (headIdx m) ∧ p.Nodup ∧
      (∀ x ∈ p, x ∈ leavesIdx m) ∧
      p.Chain' (fun a b => (Sum.inl a, Sum.inl b) ∈ relsT m) := by
  refine HTree.recMem (fun i cat => ?_) (fun hd cat cs ih => ?_)
  · intro _ _ _ d hdep
    simp [depsOf, relsT] at hdep
  · intro hg hmk hnd d hdep
    obtain ⟨n, rfl⟩ := marked_node_ex hmk
    rw [leavesIdx_node] at hnd ⊢
    rw [headIdx_node_inl]
    rw [depsOf, relsT_node_inl] at hdep
    rw [relsT_node_inl]
    have hmc : ∀ c ∈ cs, markedT c = true :=
      (markedC_forall cs).mp (marked_node_children hmk)
    rw [goodT] at hg
    simp only [Bool.and_eq_true, List.any_eq_true, decide_eq_true_eq] at hg
    obtain ⟨⟨ch, hchmem, hchv⟩, hgc⟩ := hg
    have hgcs : ∀ c ∈ cs, goodT c = true := (goodC_forall cs).mp hgc
    have hIdxch : headIdx ch = n := by
      have := headV_of_marked (hmc ch hchmem)
      rw [this] at hchv
      injection hchv
    have st : ∀ c ∈ cs,
        headIdx c ∈ leavesIdx c ∧
        (∀ r ∈ relsT c, r.1 = Sum.inl (relKey r) ∧ ∃ b ∈ leavesIdx c, r.2 = Sum.inl b) ∧
        (headIdx c :: depsOf c).Perm (leavesIdx c) := fun c hc =>
      rels_struct c (hgcs c hc) (hmc c hc) (nodup_leavesIdx_of_mem hc hnd)
    have hmemn : n ∈ leavesIdxC cs :=
      leavesIdx_subset hchmem (hIdxch ▸ (st ch hchmem).1)
    have hnotin : ∀ c ∈ cs, headIdx c ≠ n → n ∉ leavesIdx c := by
      intro c hc hcn hmem
      have : c = ch := leaves_overlap_eq hnd hc hchmem hmem (hIdxch ▸ (st ch hchmem).1)
      exact hcn (this ▸ hIdxch)
    obtain ⟨r, hrmem, hrkey⟩ := List.mem_map.mp hdep
    rcases mem_relsC.mp hrmem with ⟨c, hc, hcase | hcase⟩
    · -- an edge emitted at this node: d is the head of a non-head child
      obtain ⟨hre, hneq⟩ := hcase
      have hvc : headV c = Sum.inl (headIdx c) := headV_of_marked (hmc c hc)
      have hd_eq : d = headIdx c := by
        subst hre
        rw [hvc] at hrkey
        rw [← hrkey, relKey_inl]
      have hcn : headIdx c ≠ n := by
        intro he; exact hneq (by rw [hvc, he])
      refine ⟨[d, n], rfl, rfl, ?_, ?_, ?_⟩
      · simp [hd_eq, hcn]
      · intro x hx
        rcases List.mem_cons.mp hx with e | e
        · subst e; exact leavesIdx_subset hc (hd_eq ▸ (st c hc).1)
        · rcases List.mem_cons.mp e with e2 | e2
          · subst e2; exact hmemn
          · cases e2
      · refine List.chain'_cons.mpr ⟨?_, List.chain'_singleton n⟩
        refine mem_relsC.mpr ⟨c, hc, Or.inl ⟨?_, hneq⟩⟩
        rw [hvc, hd_eq]
    · -- a relation yielded inside the child subtree
      have hdeps : d ∈ depsOf c := by
        rw [depsOf]
        exact List.mem_map.mpr ⟨r, hcase, hrkey⟩
      obtain ⟨p, hph, hpl, hpn, hps, hpc⟩ :=
        ih c hc (hgcs c hc) (hmc c hc) (nodup_leavesIdx_of_mem hc hnd) d hdeps
      have hlift : p.Chain' (fun a b => (Sum.inl a, Sum.inl b) ∈ relsC (Sum.inl n) cs) :=
        hpc.imp (fun a b hab => mem_relsC.mpr ⟨c, hc, Or.inr hab⟩)
      by_cases hcn : headIdx c = n
      · exact ⟨p, hph, hcn ▸ hpl, hpn, fun x hx => leavesIdx_subset hc (hps x hx), hlift⟩
      · have hpe : p ≠ [] := by
          intro he; rw [he] at hph; cases hph
        have hnnotp : n ∉ p := fun hx => hnotin c hc hcn (hps n hx)
        refine ⟨p ++ [n], ?_, List.getLast?_concat p, ?_, ?_, ?_⟩
        · rw [List.head?_append_of_ne_nil p hpe, hph]
        · exact List.nodup_append.mpr ⟨hpn, List.nodup_singleton n,
            fun x hx hex => by
              rcases List.mem_cons.mp hex with e | e
              · exact hnnotp (e ▸ hx)
              · cases e⟩
        · intro x hx
          rcases List.mem_append.mp hx with e | e
          · exact leavesIdx_subset hc (hps x e)
          · rcases List.mem_cons.mp e with e2 | e2
            · subst e2; exact hmemn
            · cases e2
        · refine List.chain'_append.mpr ⟨hlift, List.chain'_singleton n, ?_⟩
          intro x hx y hy
          rw [hpl] at hx
          cases hx
          cases hy
          have hvc : headV c = Sum.inl (headIdx c) := headV_of_marked (hmc c hc)
          refine mem_relsC.mpr ⟨c, hc, Or.inl ⟨by rw [hvc], ?_⟩⟩
          rw [hvc]
          intro he
          exact hcn (by injection he)

theorem parentOf_eq : ∀ {rels : List (HeadV × HeadV)},
    (rels.map relKey).Nodup →
    (∀ r ∈ rels, r.1 = Sum.inl (relKey r)) →
    ∀ {a b : Nat}, (Sum.inl a, Sum.inl b) ∈ rels →
    parentOf rels a = some b := by
  intro rels
  induction rels with
  | nil => intro _ _ a b hmem; cases hmem
  | cons x l ih =>
    intro hnd hfst a b hmem
    rw [List.map_cons, List.nodup_cons] at hnd
    by_cases hx : x.1 = Sum.inl a
    · have hkey : relKey x = a := by
        have h2 := hfst x (by simp)
        rw [h2] at hx
        exact Sum.inl.inj hx
      rcases List.mem_cons.mp hmem with e | e
      · rw [parentOf, List.find?_cons_of_pos _ (by simp [hx])]
        rw [← e]
      · exfalso
        have : relKey (Sum.inl a, Sum.inl b) = a := relKey_inl a (Sum.inl b)
        have hin : a ∈ l.map relKey := List.mem_map.mpr ⟨_, e, this⟩
        exact hnd.1 (hkey ▸ hin)
    · have hmem' : (Sum.inl a, Sum.inl b) ∈ l := by
        rcases List.mem_cons.mp hmem with e | e
        · exact absurd (by rw [← e]) hx
        · exact e
      rw [parentOf, List.find?_cons_of_neg _ (by simp [hx])]
      have := ih hnd.2 (fun r hr => hfst r (by simp [hr])) hmem'
      rw [parentOf] at this
      exact this

theorem getRelations_spec (m : HTree) (N : Nat)
    (hg : goodT m = true) (hmk : markedT m = true)
    (hleaves : leavesIdx m = List.range' 1 N) :
    ∃ rels, getRelations m = Except.ok rels ∧
      rels.map Prod.fst = (List.range' 1 N).map Sum.inl ∧
      rels.countP (fun r => decide (r.2 = Sum.inl 0)) = 1 ∧
      (∀ d pr, (Sum.inl d, pr) ∈ rels → ∃ p : List Nat,
        p.head? = some d ∧ p.getLast? = some 0 ∧ p.Nodup ∧ p.length ≤ N + 1 ∧
        p.Chain' (fun a b => parentOf rels a = some b)) := by
  have hnd : (leavesIdx m).Nodup := by rw [hleaves]; exact List.nodup_range' 1 N
  obtain ⟨hhm, hpar, hperm⟩ := rels_struct m hg hmk hnd
  have hvm : headV m = Sum.inl (headIdx m) := headV_of_marked hmk
  have hfstAll : ∀ r ∈ relsAll m, r.1 = Sum.inl (relKey r) := by
    intro r hr
    rcases List.mem_cons.mp hr with e | e
    · subst e; rw [hvm]; rfl
    · exact (hpar r e).1
  have hguard : (relsAll m).all (fun r => (relKey? r).isSome) = true := by
    rw [List.all_eq_true]
    intro r hr
    have h1 := hfstAll r hr
    obtain ⟨f, s⟩ := r
    cases f with
    | inl k => simp [relKey?]
    | inr st => simp at h1
  have hget : getRelations m = Except.ok (List.insertionSort relLE (relsAll m)) := by
    rw [getRelations]
    simp only [hguard, if_true]
  set rels := List.insertionSort relLE (relsAll m) with hrelsdef
  have hsp : rels.Perm (relsAll m) := List.perm_insertionSort relLE (relsAll m)
  have hmapAll : (relsAll m).map relKey = headIdx m :: (relsT m).map relKey := by
    rw [relsAll, List.map_cons, hvm, relKey_inl]
  have hkperm : (rels.map relKey).Perm (List.range' 1 N) := by
    refine (hsp.map relKey).trans ?_
    rw [hmapAll, ← hleaves]
    exact hperm
  have hknodup : (rels.map relKey).Nodup :=
    hkperm.symm.nodup (List.nodup_range' 1 N)
  have hsorted : List.Sorted relLE rels := List.sorted_insertionSort relLE (relsAll m)
  have hple : List.Pairwise (fun a b : Nat => a ≤ b) (rels.map relKey) :=
    List.pairwise_map.mpr hsorted
  have hplt : List.Pairwise (fun a b : Nat => a < b) (rels.map relKey) := by
    have hand := List.Pairwise.and hple hknodup
    exact hand.imp (fun h => lt_of_le_of_ne h.1 h.2)
  have hkeq : rels.map relKey = List.range' 1 N := by
    haveI : IsAntisymm Nat (· < ·) := ⟨fun a b h1 h2 => absurd h2 (Nat.lt_asymm h1)⟩
    exact List.eq_of_perm_of_sorted hkperm hplt (List.pairwise_lt_range' 1 N)
  have hfst : ∀ r ∈ rels, r.1 = Sum.inl (relKey r) :=
    fun r hr => hfstAll r (hsp.mem_iff.mp hr)
  have hfsteq : rels.map Prod.fst = (List.range' 1 N).map Sum.inl := by
    calc rels.map Prod.fst
        = rels.map (Sum.inl ∘ relKey) := List.map_congr_left hfst
      _ = (rels.map relKey).map Sum.inl := (List.map_map _ _ _).symm
      _ = (List.range' 1 N).map Sum.inl := by rw [hkeq]
  have hcount : rels.countP (fun r => decide (r.2 = Sum.inl 0)) = 1 := by
    rw [hsp.countP_eq]
    rw [relsAll, List.countP_cons_of_pos _ _ (by simp)]
    have h0 : (relsT m).countP (fun r => decide (r.2 = Sum.inl 0)) = 0 := by
      rw [List.countP_eq_zero]
      intro r hr
      obtain ⟨b, hb, h2⟩ := (hpar r hr).2
      simp only [h2, decide_eq_true_eq]
      intro he
      injection he with he'
      rw [hleaves] at hb
      have := (List.mem_range'_1.mp hb).1
      omega
    rw [h0]
  have hmemroot : headIdx m ∈ List.range' 1 N := hleaves ▸ hhm
  have hN1 : 1 ≤ N := by
    have h2 := List.mem_range'_1.mp hmemroot
    omega
  have hrootmem : (Sum.inl (headIdx m), Sum.inl 0) ∈ rels := by
    refine hsp.mem_iff.mpr ?_
    rw [relsAll, ← hvm]
    exact List.mem_cons_self _ _
  have hparent_root : parentOf rels (headIdx m) = some 0 :=
    parentOf_eq hknodup hfst hrootmem
  refine ⟨rels, hget, hfsteq, hcount, ?_⟩
  intro d pr hmem
  rcases List.mem_cons.mp (hsp.mem_iff.mp hmem) with e | e
  · have e2 : Sum.inl d = headV m ∧ pr = Sum.inl 0 := by
      constructor
      · exact congrArg Prod.fst e
      · exact congrArg Prod.snd e
    have hd : d = headIdx m := by
      have := e2.1
      rw [hvm] at this
      exact Sum.inl.inj this
    have hd0 : d ≠ 0 := by
      have := (List.mem_range'_1.mp (hd ▸ hmemroot)).1
      omega
    refine ⟨[d, 0], rfl, rfl, by simp [hd0],
      by simp only [List.length_cons, List.length_nil]; omega, ?_⟩
    refine List.chain'_cons.mpr ⟨?_, List.chain'_singleton 0⟩
    rw [hd]
    exact hparent_root
  · have hdkey : relKey (Sum.inl d, pr) = d := relKey_inl d pr
    have hdep : d ∈ depsOf m := by
      rw [depsOf]
      exact List.mem_map.mpr ⟨_, e, hdkey⟩
    obtain ⟨p0, hh, hl, hn, hs, hc⟩ := rels_reach m hg hmk hnd d hdep
    have hp0ne : p0 ≠ [] := by
      intro hcon
      rw [hcon] at hh
      cases hh
    have hs' : ∀ x ∈ p0, x ∈ List.range' 1 N := fun x hx => hleaves ▸ hs x hx
    have h0notin : (0 : Nat) ∉ p0 := by
      intro h0
      have := (List.mem_range'_1.mp (hs' 0 h0)).1
      omega
    have hlen : p0.length ≤ N := by
      have hsub := List.subperm_of_subset hn hs'
      have := hsub.length_le
      simpa [List.length_range'] using this
    have hchain : (p0 ++ [0]).Chain' (fun a b => parentOf rels a = some b) := by
      rw [List.chain'_append]
      refine ⟨hc.imp ?_, List.chain'_singleton 0, ?_⟩
      · intro a b hab
        exact parentOf_eq hknodup hfst (hsp.mem_iff.mpr (List.mem_cons_of_mem _ hab))
      · intro x hx y hy
        rw [hl, Option.mem_def] at hx
        injection hx with hx'
        rw [Option.mem_def] at hy
        injection hy with hy'
        subst hx'
        subst hy'
        exact hparent_root
    refine ⟨p0 ++ [0], ?_, List.getLast?_concat p0, ?_, ?_, hchain⟩
    · rw [List.head?_append_of_ne_nil p0 hp0ne, hh]
    · refine List.nodup_append.mpr ⟨hn, List.nodup_singleton 0, ?_⟩
      intro x hx hmemx
      rcases List.mem_cons.mp hmemx with e2 | e2
      · exact h0notin (e2 ▸ hx)
      · cases e2
    · rw [List.length_append]
      simp only [List.length_singleton]
      omega

/-! ## Claim theorems -/

/-- C1: for every structurally well-formed input tree with `N` leaves
whose head marking resolves every node, `_get_relations` on the marked
tree succeeds and its sorted relation list has dependent components
exactly `1, …, N` in ascending order — so there are exactly `N`
relations, every leaf index appears exactly once as a dependent, and the
list is sorted by dependent index; in particular the single-leaf tree
`(NN dog)` yields exactly the one relation `(1, 0)`. -/
theorem relations_one_per_leaf (t : STree) (tbl : RuleTable)
    (hwf : wfS t = true)
    (hmk : markedT (markHeadsT tbl (preprosess t).1) = true) :
    ∃ rels, getRelations (markHeadsT tbl (preprosess t).1) = Except.ok rels ∧
      rels.map Prod.fst = (List.range' 1 (numLeavesS t)).map Sum.inl := by
  have hg := good_markHeadsT tbl (preprosess t).1
  have hleaves : leavesIdx (markHeadsT tbl (preprosess t).1) =
      List.range' 1 (numLeavesS t) := by
    rw [leavesIdx_markHeadsT]
    exact (preprosessT_spec t 1).2.1
  obtain ⟨rels, h1, h2, _, _⟩ := getRelations_spec _ _ hg hmk hleaves
  exact ⟨rels, h1, h2⟩

theorem relations_one_per_leaf_witness :
    ∃ rels, getRelations (markHeadsT [] (preprosess (STree.leaf "NN" "dog")).1) =
        Except.ok rels ∧
      rels.map Prod.fst =
        (List.range' 1 (numLeavesS (STree.leaf "NN" "dog"))).map Sum.inl :=
  relations_one_per_leaf (STree.leaf "NN" "dog") [] (by decide) (by decide)

/-- C2: for every structurally well-formed input tree with `N` leaves
whose head marking resolves every node, the produced relation list has
exactly one relation with head index 0, and from every dependent index,
following dependent-to-head links reaches 0 in at most `N` steps along a
path that never revisits an index. -/
theorem single_root_reaches_all (t : STree) (tbl : RuleTable)
    (hwf : wfS t = true)
    (hmk : markedT (markHeadsT tbl (preprosess t).1) = true) :
    ∃ rels, getRelations (markHeadsT tbl (preprosess t).1) = Except.ok rels ∧
      rels.countP (fun r => decide (r.2 = Sum.inl 0)) = 1 ∧
      ∀ d pr, (Sum.inl d, pr) ∈ rels → ∃ p : List Nat,
        p.head? = some d ∧ p.getLast? = some 0 ∧ p.Nodup ∧
        p.length ≤ numLeavesS t + 1 ∧
        p.Chain' (fun a b => parentOf rels a = some b) := by
  have hg := good_markHeadsT tbl (preprosess t).1
  have hleaves : leavesIdx (markHeadsT tbl (preprosess t).1) =
      List.range' 1 (numLeavesS t) := by
    rw [leavesIdx_markHeadsT]
    exact (preprosessT_spec t 1).2.1
  obtain ⟨rels, h1, _, h3, h4⟩ := getRelations_spec _ _ hg hmk hleaves
  exact ⟨rels, h1, h3, h4⟩

theorem single_root_reaches_all_witness :
    ∃ rels,
      getRelations (markHeadsT [("S", [⟨"l", ["VP"]⟩]), ("VP", [⟨"l", ["VBZ"]⟩])]
        (preprosess (STree.node "S" [STree.node "NP" [STree.leaf "NN" "dog"],
          STree.node "VP" [STree.leaf "VBZ" "barks"]])).1) = Except.ok rels ∧
      rels.countP (fun r => decide (r.2 = Sum.inl 0)) = 1 ∧
      ∀ d pr, (Sum.inl d, pr) ∈ rels → ∃ p : List Nat,
        p.head? = some d ∧ p.getLast? = some 0 ∧ p.Nodup ∧
        p.length ≤ numLeavesS (STree.node "S" [STree.node "NP" [STree.leaf "NN" "dog"],
          STree.node "VP" [STree.leaf "VBZ" "barks"]]) + 1 ∧
        p.Chain' (fun a b => parentOf rels a = some b) :=
  single_root_reaches_all
    (STree.node "S" [STree.node "NP" [STree.leaf "NN" "dog"],
      STree.node "VP" [STree.leaf "VBZ" "barks"]])
    [("S", [⟨"l", ["VP"]⟩]), ("VP", [⟨"l", ["VBZ"]⟩])]
    (by decide) (by decide)

/-- C3: during head marking, an internal node whose (cleaned) category
has no entry in the head-rule table takes the head of its last child in
original left-to-right order — a fallback, not an error. -/
theorem fallback_last_child (tbl : RuleTable) (lab : String) (cs : List NTree)
    (hnone : dictGet? tbl lab = none) (c : HTree)
    (hlast : (markHeadsC tbl cs).getLast? = some c) :
    headV (markHeadsT tbl (.node lab cs)) = headV c := by
  rw [markHeadsT_node, headV, chooseHead, hnone, hlast]
  rfl

theorem fallback_last_child_witness :
    headV (markHeadsT [] (NTree.node "X" [NTree.leaf "A" 1, NTree.leaf "B" 2])) =
      headV (HTree.leaf 2 "B") :=
  fallback_last_child [] "X" [NTree.leaf "A" 1, NTree.leaf "B" 2]
    (by decide) (HTree.leaf 2 "B") rfl

/-- C4: a rule with an empty priority-tag list, once tried on a node with
children, always succeeds and ends the rule search, selecting the first
child in the rule's scan order regardless of its category: the rightmost
child when the direction token is exactly `'r'`, the leftmost child
otherwise. -/
theorem empty_tags_selects_extreme (d : String) (rs : List HeadRule)
    (cs : List HTree) (hne : cs ≠ []) :
    (findRule (⟨d, []⟩ :: rs) cs).isSome = true ∧
    (d = "r" → findRule (⟨d, []⟩ :: rs) cs = cs.getLast?.map headV) ∧
    (d ≠ "r" → findRule (⟨d, []⟩ :: rs) cs = cs.head?.map headV) := by
  have hscan : findRule (⟨d, []⟩ :: rs) cs = (scanOrder d cs).head?.map headV := by
    rw [findRule]
    have htry : tryRule ⟨d, []⟩ cs = (scanOrder d cs).head?.map headV := by
      rw [tryRule]
      simp
    rw [htry]
    cases hh : (scanOrder d cs).head? with
    | none =>
      exfalso
      rw [List.head?_eq_none_iff] at hh
      rw [scanOrder] at hh
      split at hh
      · simp at hh
        exact hne hh
      · exact hne hh
    | some c0 => rfl
  refine ⟨?_, ?_, ?_⟩
  · rw [hscan]
    cases hh : (scanOrder d cs).head? with
    | none =>
      exfalso
      rw [List.head?_eq_none_iff] at hh
      rw [scanOrder] at hh
      split at hh
      · simp at hh
        exact hne hh
      · exact hne hh
    | some c0 => simp [hh]
  · intro hd
    subst hd
    rw [hscan]
    simp [scanOrder, List.head?_reverse]
  · intro hd
    rw [hscan, scanOrder, if_neg (by simpa using hd)]

theorem empty_tags_selects_extreme_witness :
    findRule [⟨"r", []⟩] [HTree.leaf 1 "A", HTree.leaf 2 "B", HTree.leaf 3 "C"] =
      some (Sum.inl 3) := by
  have h := (empty_tags_selects_extreme "r" []
    [HTree.leaf 1 "A", HTree.leaf 2 "B", HTree.leaf 3 "C"]
    (List.cons_ne_nil _ _)).2.1 rfl
  rw [h]
  rfl

/-- C5: rules for a category are tried in listed order with the first
success winning; inside a rule with non-empty priority tags, the tags are
tried in listed order, a tag with no matching child defers to the later
tags, and the first tag matching some child's category selects the first
matching child in the rule's scan order (for direction `'r'`, the
rightmost matching child, since the scan is right-to-left). -/
theorem rule_priority_order :
    (∀ (r : HeadRule) (rs : List HeadRule) (cs : List HTree) (h : HeadV),
       tryRule r cs = some h → findRule (r :: rs) cs = some h) ∧
    (∀ (r : HeadRule) (rs : List HeadRule) (cs : List HTree),
       tryRule r cs = none → findRule (r :: rs) cs = findRule rs cs) ∧
    (∀ (d tg : String) (tgs : List String) (cs : List HTree),
       (∀ c ∈ scanOrder d cs, tagV c ≠ some tg) →
       tryRule ⟨d, tg :: tgs⟩ cs = findTag tgs (scanOrder d cs)) ∧
    (∀ (d tg : String) (tgs : List String) (cs : List HTree) (c0 : HTree),
       (scanOrder d cs).find? (fun c => decide (tagV c = some tg)) = some c0 →
       tryRule ⟨d, tg :: tgs⟩ cs = some (headV c0)) ∧
    (∀ cs : List HTree, scanOrder "r" cs = cs.reverse) := by
  refine ⟨?_, ?_, ?_, ?_, ?_⟩
  · intro r rs cs h hh
    rw [findRule, hh]
  · intro r rs cs hh
    rw [findRule, hh]
  · intro d tg tgs cs hno
    rw [tryRule]
    simp only [List.isEmpty_iff, if_neg (by simp : ¬(tg :: tgs) = [])]
    rw [findTag, if_neg]
    rw [List.any_eq_true]
    rintro ⟨c, hc, hp⟩
    rw [decide_eq_true_eq] at hp
    exact hno c hc hp
  · intro d tg tgs cs c0 hfind
    rw [tryRule]
    simp only [List.isEmpty_iff, if_neg (by simp : ¬(tg :: tgs) = [])]
    have hp := List.find?_some hfind
    rw [findTag, if_pos (List.any_eq_true.mpr ⟨c0, List.mem_of_find?_eq_some hfind, hp⟩),
      hfind]
    rfl
  · intro cs
    simp [scanOrder]

theorem rule_priority_order_witness :
    tryRule ⟨"r", ["NP"]⟩ [HTree.leaf 1 "NP", HTree.leaf 2 "NP"] =
      some (Sum.inl 2) := by
  have h := rule_priority_order.2.2.2.1 "r" "NP" []
    [HTree.leaf 1 "NP", HTree.leaf 2 "NP"] (HTree.leaf 2 "NP") rfl
  simpa using h

/-- C10: the scan over a node's children is reversed exactly when the
rule's direction token is the string `'r'`; every other token — `'l'` or
anything else, since `_load_head_rules` accepts an arbitrary first token
as the direction — leaves the children in original left-to-right
order. -/
theorem direction_token_scan :
    (∀ (d : String) (cs : List HTree), d ≠ "r" → scanOrder d cs = cs) ∧
    (∀ cs : List HTree, scanOrder "r" cs = cs.reverse) ∧
    (∀ (s d : String) (ts : List String),
       pySplitWs s = d :: ts → parseSubRule s = Except.ok ⟨d, ts⟩) := by
  refine ⟨?_, ?_, ?_⟩
  · intro d cs hd
    rw [scanOrder, if_neg (by simpa using hd)]
  · intro cs
    simp [scanOrder]
  · intro s d ts hsplit
    rw [parseSubRule, hsplit]

theorem direction_token_scan_witness :
    scanOrder "xyz" [HTree.leaf 1 "A", HTree.leaf 2 "B"] =
        [HTree.leaf 1 "A", HTree.leaf 2 "B"] ∧
      parseSubRule "xyz NP" = Except.ok ⟨"xyz", ["NP"]⟩ :=
  ⟨direction_token_scan.1 "xyz" [HTree.leaf 1 "A", HTree.leaf 2 "B"] (by decide),
   direction_token_scan.2.2 "xyz NP" "xyz" ["NP"] (by decide)⟩

/-- C6 (amended): `_preprosess` replaces the token of the `k`-th leaf in
left-to-right depth-first order with the integer `k` (sequential from 1,
equal to the leaf's 1-based traversal rank) and returns the ordered
sequence of `(cleaned category, original token text)` pairs, one per
leaf, in the same left-to-right order — the category recorded in the
sequence is the label after suffix cleaning, not the original label. -/
theorem preprosess_indices_and_pairs (t : STree) :
    ntokens (preprosess t).1 = List.range' 1 (numLeavesS t) ∧
    (preprosess t).2 = specLeafPairs t := by
  have h := preprosessT_spec t 1
  exact ⟨h.2.1, h.2.2.1⟩

/-- C6 counterexample: on the single-leaf tree `(NN-1 dog)` the returned
sequence pairs the token with the cleaned category `NN`, not with the
original category `NN-1` as the claim states. -/
theorem preprosess_pairs_cleaned_counterexample :
    (preprosess (STree.leaf "NN-1" "dog")).2 = [("NN", "dog")] ∧
    (preprosess (STree.leaf "NN-1" "dog")).2 ≠ [("NN-1", "dog")] := by
  constructor
  · rfl
  · decide

/-- C8 (amended): loading the head-rule table fails when a source line
lacks the category/rule separator `':'` (the two-name unpacking of
`line.split(':')` raises); direction tokens are not validated — any first
token of a rule group is accepted as its direction — and a successful
load maps the lines one-to-one onto category/rule-list entries in order. -/
theorem load_rules_separator_and_shape :
    (∀ (lines : List String) (line : String), line ∈ lines →
       pySplitOn line ':' = [line] → ∃ e, loadHeadRules lines = Except.error e) ∧
    (∀ (lines : List String) (tbl : RuleTable), loadHeadRules lines = Except.ok tbl →
       List.Forall₂ (fun line ent => parseRuleLine line = Except.ok ent) lines tbl) := by
  constructor
  · intro lines
    induction lines with
    | nil => intro line hmem; cases hmem
    | cons y ys ih =>
      intro line hmem hsplit
      cases hy : parseRuleLine y with
      | error e => exact ⟨e, by rw [loadHeadRules]; rw [hy]; rfl⟩
      | ok v =>
        have hline : line ∈ ys := by
          rcases List.mem_cons.mp hmem with e | e
          · exfalso
            subst e
            rw [parseRuleLine, hsplit] at hy
            cases hy
          · exact e
        obtain ⟨e, he⟩ := ih line hline hsplit
        refine ⟨e, ?_⟩
        rw [loadHeadRules, hy, he]
        rfl
  · intro lines
    induction lines with
    | nil =>
      intro tbl h
      rw [loadHeadRules] at h
      injection h with h'
      subst h'
      exact List.Forall₂.nil
    | cons y ys ih =>
      intro tbl h
      rw [loadHeadRules] at h
      cases hy : parseRuleLine y with
      | error e => rw [hy] at h; cases h
      | ok v =>
        rw [hy] at h
        cases hys : loadHeadRules ys with
        | error e => rw [hys] at h; cases h
        | ok tl =>
          rw [hys] at h
          injection h with h'
          subst h'
          exact List.Forall₂.cons hy (ih tl hys)

theorem load_rules_separator_witness :
    ∃ e, loadHeadRules ["NPl NN"] = Except.error e :=
  load_rules_separator_and_shape.1 ["NPl NN"] "NPl NN" (by simp) (by decide)

/-- C8 counterexample: the line `NP: x NN` carries the unrecognized
direction token `x`, yet the loader accepts it and stores `x` verbatim as
the rule's direction, contradicting the claimed format error. -/
theorem load_rules_direction_unvalidated_counterexample :
    loadHeadRules ["NP: x NN"] = Except.ok [("NP", [⟨"x", ["NN"]⟩])] ∧
    "x" ≠ "l" ∧ "x" ≠ "r" := by
  refine ⟨rfl, by decide, by decide⟩

/-- C9 (amended): when an internal node's category has rule entries but
no rule selects a head, head marking leaves the node without any head
annotation (it is not silently defaulted), and the subsequent relation
extraction fails with the integer-parse error raised while sorting —
provided the category itself is not a decimal numeral; there is no
structured report carrying the category and tree context, and for a
numeric category the conversion even succeeds silently. -/
theorem unresolved_head_behaviour (tbl : RuleTable) (lab : String) (cs : List NTree)
    (rules : List HeadRule)
    (h1 : dictGet? tbl lab = some rules)
    (h2 : findRule rules (markHeadsC tbl cs) = none) :
    markHeadsT tbl (.node lab cs) = .node none lab (markHeadsC tbl cs) ∧
    (pyToNat? lab = none →
      ∃ e, getRelations (markHeadsT tbl (.node lab cs)) = Except.error e) := by
  have hch : chooseHead tbl lab (markHeadsC tbl cs) = none := by
    rw [chooseHead, h1]
    exact h2
  have hmark : markHeadsT tbl (.node lab cs) = .node none lab (markHeadsC tbl cs) := by
    rw [markHeadsT_node, hch]
  refine ⟨hmark, ?_⟩
  intro hnum
  rw [hmark, getRelations]
  have hall : ((relsAll (.node none lab (markHeadsC tbl cs))).all
      (fun r => (relKey? r).isSome)) = false := by
    rw [List.all_eq_false]
    refine ⟨(Sum.inr lab, Sum.inl 0), ?_, ?_⟩
    · rw [relsAll]
      exact List.mem_cons_self _ _
    · simp [relKey?, hnum]
  rw [hall]
  exact ⟨_, rfl⟩

theorem unresolved_head_behaviour_witness :
    markHeadsT [("S", [⟨"l", ["X"]⟩])] (NTree.node "S" [NTree.leaf "A" 1]) =
      HTree.node none "S" [HTree.leaf 1 "A"] ∧
    (pyToNat? "S" = none →
      ∃ e, getRelations (markHeadsT [("S", [⟨"l", ["X"]⟩])]
        (NTree.node "S" [NTree.leaf "A" 1])) = Except.error e) :=
  unresolved_head_behaviour [("S", [⟨"l", ["X"]⟩])] "S" [NTree.leaf "A" 1]
    [⟨"l", ["X"]⟩] rfl rfl

/-- C9 counterexample: with the rule table `5: l X` and the tree
`(5 (A a)(B b))`, no rule matches the root's category `5`, yet the
conversion is not fatal and reports nothing: the root keeps its bare
category, whose text parses as the integer 5, and `_get_relations`
silently returns relations that use the raw category as a head index. -/
theorem unresolved_head_silent_counterexample :
    markHeadsT [("5", [⟨"l", ["X"]⟩])] (NTree.node "5" [NTree.leaf "A" 1, NTree.leaf "B" 2]) =
      HTree.node none "5" [HTree.leaf 1 "A", HTree.leaf 2 "B"] ∧
    getRelations (HTree.node none "5" [HTree.leaf 1 "A", HTree.leaf 2 "B"]) =
      Except.ok [(Sum.inl 1, Sum.inr "5"), (Sum.inl 2, Sum.inr "5"),
        (Sum.inr "5", Sum.inl 0)] :=
  ⟨rfl, rfl⟩

/-! ## Frame properties of the heap-level passes -/

theorem hupd_ne {h : Heap} {a : Nat} {n : PNode} {x : Nat} (hx : x ≠ a) :
    hupd h a n x = h x := by
  simp [hupd, hx]

theorem cleanLabelAt_ne {h : Heap} {a x : Nat} (hx : x ≠ a) :
    cleanLabelAt h a x = h x := by
  simp only [cleanLabelAt]
  split
  · exact hupd_ne hx
  · rfl

theorem copyDeepC_frame (cs : List AShape)
    (ih : ∀ s ∈ cs, ∀ (h : Heap) (c : Nat),
      c ≤ (copyDeepT s h c).2.2 ∧
      (∀ x, x < c → (copyDeepT s h c).2.1 x = h x) ∧
      (∀ a ∈ shapeAddrs (copyDeepT s h c).1, c ≤ a ∧ a < (copyDeepT s h c).2.2)) :
    ∀ (h : Heap) (c : Nat),
      c ≤ (copyDeepC cs h c).2.2 ∧
      (∀ x, x < c → (copyDeepC cs h c).2.1 x = h x) ∧
      (∀ a ∈ shapeAddrsC (copyDeepC cs h c).1, c ≤ a ∧ a < (copyDeepC cs h c).2.2) := by
  induction cs with
  | nil =>
    intro h c
    refine ⟨Nat.le_refl c, fun x _ => rfl, ?_⟩
    intro a ha
    simp [copyDeepC, shapeAddrsC] at ha
  | cons s ss ihc =>
    intro h c
    obtain ⟨h1le, h1fr, h1ad⟩ := ih s (by simp) h c
    obtain ⟨h2le, h2fr, h2ad⟩ := ihc (fun s hs => ih s (by simp [hs]))
      (copyDeepT s h c).2.1 (copyDeepT s h c).2.2
    simp only [copyDeepC]
    refine ⟨Nat.le_trans h1le h2le, ?_, ?_⟩
    · intro x hx
      rw [h2fr x (Nat.lt_of_lt_of_le hx h1le), h1fr x hx]
    · intro a ha
      rw [shapeAddrsC] at ha
      rcases List.mem_append.mp ha with hmem | hmem
      · obtain ⟨hge, hlt⟩ := h1ad a hmem
        exact ⟨hge, Nat.lt_of_lt_of_le hlt h2le⟩
      · obtain ⟨hge, hlt⟩ := h2ad a hmem
        exact ⟨Nat.le_trans h1le hge, hlt⟩

theorem copyDeepT_frame : ∀ (t : AShape) (h : Heap) (c : Nat),
    c ≤ (copyDeepT t h c).2.2 ∧
    (∀ x, x < c → (copyDeepT t h c).2.1 x = h x) ∧
    (∀ a ∈ shapeAddrs (copyDeepT t h c).1, c ≤ a ∧ a < (copyDeepT t h c).2.2) := by
  refine AShape.recMem (fun a h c => ?_) (fun a cs ih h c => ?_)
  · simp only [copyDeepT]
    refine ⟨Nat.le_succ c, ?_, ?_⟩
    · intro x hx
      exact hupd_ne (by omega)
    · intro b hb
      rw [shapeAddrs] at hb
      rcases List.mem_cons.mp hb with e | e
      · subst e; omega
      · cases e
  · obtain ⟨hcle, hcfr, hcad⟩ := copyDeepC_frame cs ih h c
    simp only [copyDeepT]
    refine ⟨by omega, ?_, ?_⟩
    · intro x hx
      rw [hupd_ne (by omega), hcfr x hx]
    · intro b hb
      rw [shapeAddrs] at hb
      rcases List.mem_cons.mp hb with e | e
      · subst e; omega
      · obtain ⟨hge, hlt⟩ := hcad b e
        omega

theorem preMutC_frame (cs : List AShape)
    (ih : ∀ s ∈ cs, ∀ (h : Heap) (i : Nat) (x : Nat),
      x ∉ shapeAddrs s → (preMutT s h i).1 x = h x) :
    ∀ (h : Heap) (i : Nat) (x : Nat),
      x ∉ shapeAddrsC cs → (preMutC cs h i).1 x = h x := by
  induction cs with
  | nil => intro h i x _; rfl
  | cons s ss ihc =>
    intro h i x hx
    rw [shapeAddrsC, List.mem_append] at hx
    push_neg at hx
    simp only [preMutC]
    rw [ihc (fun s hs => ih s (by simp [hs])) _ _ x hx.2]
    exact ih s (by simp) h i x hx.1

theorem preMutT_frame : ∀ (t : AShape) (h : Heap) (i : Nat) (x : Nat),
    x ∉ shapeAddrs t → (preMutT t h i).1 x = h x := by
  refine AShape.recMem (fun a h i x hx => ?_) (fun a cs ih h i x hx => ?_)
  · rw [shapeAddrs] at hx
    have hxa : x ≠ a := by simpa using hx
    simp only [preMutT]
    rw [hupd_ne hxa, cleanLabelAt_ne hxa]
  · rw [shapeAddrs, List.mem_cons] at hx
    push_neg at hx
    simp only [preMutT]
    rw [preMutC_frame cs ih _ _ x hx.2, cleanLabelAt_ne hx.1]

theorem markMutC_frame (tbl : RuleTable) (cs : List AShape)
    (ih : ∀ s ∈ cs, ∀ (h : Heap) (x : Nat),
      x ∉ shapeAddrs s → markMutT tbl s h x = h x) :
    ∀ (h : Heap) (x : Nat),
      x ∉ shapeAddrsC cs → markMutC tbl cs h x = h x := by
  induction cs with
  | nil => intro h x _; rfl
  | cons s ss ihc =>
    intro h x hx
    rw [shapeAddrsC, List.mem_append] at hx
    push_neg at hx
    simp only [markMutC]
    rw [ihc (fun s hs => ih s (by simp [hs])) _ x hx.2]
    exact ih s (by simp) h x hx.1

theorem markMutT_frame (tbl : RuleTable) : ∀ (t : AShape) (h : Heap) (x : Nat),
    x ∉ shapeAddrs t → markMutT tbl t h x = h x := by
  refine AShape.recMem (fun a h x hx => ?_) (fun a cs ih h x hx => ?_)
  · rw [shapeAddrs] at hx
    have hxa : x ≠ a := by simpa using hx
    simp only [markMutT]
    exact hupd_ne hxa
  · rw [shapeAddrs, List.mem_cons] at hx
    push_neg at hx
    have hC : markMutC tbl cs h x = h x := markMutC_frame tbl cs ih h x hx.2
    simp only [markMutT]
    cases markLabel? tbl (labelAt (markMutC tbl cs h) a)
      (cs.map (fun s => pySplitOn (labelAt (markMutC tbl cs h) (shapeAddr s)) '|')) with
    | none => exact hC
    | some newLab =>
      rw [writeLab, hupd_ne hx.1]
      exact hC

/-- C7: a full conversion — the `_preprosess` pass followed by the
`__mark_heads` pass — leaves the caller's original tree objects
completely unchanged: both passes start from `root.copy(deep=True)`,
every mutation targets an address of a copy freshly allocated above the
counter, and no address of the input tree is ever written, so any heap
cell the input tree occupies holds its original node afterwards. -/
theorem conversion_preserves_input (tbl : RuleTable) (t : AShape) (h : Heap)
    (c : Nat) (hbound : ∀ a ∈ shapeAddrs t, a < c) :
    ∀ a ∈ shapeAddrs t, (parseHeap tbl t h c).2.1 a = h a := by
  intro a ha
  have hac : a < c := hbound a ha
  obtain ⟨h1le, h1fr, h1ad⟩ := copyDeepT_frame t h c
  obtain ⟨h3le, h3fr, h3ad⟩ := copyDeepT_frame (copyDeepT t h c).1
    (preMutT (copyDeepT t h c).1 (copyDeepT t h c).2.1 1).1 (copyDeepT t h c).2.2
  simp only [parseHeap]
  have hnot3 : a ∉ shapeAddrs (copyDeepT (copyDeepT t h c).1
      (preMutT (copyDeepT t h c).1 (copyDeepT t h c).2.1 1).1
      (copyDeepT t h c).2.2).1 := by
    intro hmem
    have := (h3ad a hmem).1
    omega
  rw [markMutT_frame tbl _ _ a hnot3]
  rw [h3fr a (by omega)]
  have hnot1 : a ∉ shapeAddrs (copyDeepT t h c).1 := by
    intro hmem
    have := (h1ad a hmem).1
    omega
  rw [preMutT_frame _ _ _ a hnot1]
  exact h1fr a hac

theorem conversion_preserves_input_witness :
    (parseHeap [] (AShape.leaf 0)
      (fun x => if x = 0 then some ⟨"NN", [PVal.str "dog"]⟩ else none) 1).2.1 0 =
    (fun x => if x = 0 then some ⟨"NN", [PVal.str "dog"]⟩ else none : Heap) 0 :=
  conversion_preserves_input [] (AShape.leaf 0)
    (fun x => if x = 0 then some ⟨"NN", [PVal.str "dog"]⟩ else none) 1
    (by decide) 0 (by decide)
